import Mathlib

/-!
# Verification of the git-history backup pipeline (`script/backup_script.py`)

This file shallowly embeds the core of the backup script and proves the
frozen claims about it.  The embedding follows the source:

* `get_commits`            — commit selection by an optional date window
                             (`backup_script.py`, lines 57–86);
* `process_file`           — fetch + write of one file at one commit, with
                             deletion-skip and hard-failure handling
                             (lines 109–131);
* `process_commit`         — per-commit fan-out over the changed files
                             (lines 133–145);
* `collectCommitFiles`     — the diff-extraction stage building the
                             commit → changed-files map (lines 152–163);
* `backup_files` / `main`  — the whole run (lines 147–191).

Effects are modelled by explicit state passing.  An `Env` records the
outcome every external call would have (diff extraction, content fetch,
destination write); the embedded functions thread a `St` holding the shared
`failed_files` list, the destination filesystem (a map from path to
content), and the ordered trace of directory-creation and write events.
`asyncio.gather` never cancels sibling tasks, so a commit's file units are
modelled as all running; the `BackupError` a unit raises is modelled by the
`Except` result of `process_file`, and `process_commit` swallows it exactly
as the `except BackupError` handler does.
-/

set_option autoImplicit false

namespace BackupScript

/-- A commit as the selector sees it: content-hash identifier and committed
timestamp (`commit.hexsha`, `commit.committed_date`). -/
structure Commit where
  hexsha : String
  committed_date : Int
deriving DecidableEq

/-- Outcome of `repo.git.show('{commit}:{file}')` inside
`read_file_content`: the content, a `git.exc.GitCommandError` carrying its
message, or any other exception. -/
inductive FetchResult where
  | ok (content : String)
  | gitError (msg : String)
  | otherError (msg : String)
deriving DecidableEq

/-- Deterministic outcomes of the external calls the pipeline makes:
`extract c` is the result of `get_changed_files` for commit `c` (the
changed-file list, or the exception the process-pool future raised);
`fetch c f` is the result of `repo.git.show` for `c:f`; `writeOk p s` says
whether writing content `s` to destination path `p` succeeds. -/
structure Env where
  extract : String → Except String (List String)
  fetch : String → String → FetchResult
  writeOk : String → String → Bool

/-- One observable filesystem effect: an `os.makedirs(_, exist_ok=True)`
call or a completed destination write. -/
inductive Event where
  | mkdirs (path : String)
  | fwrite (path : String) (content : String)
deriving DecidableEq

/-- The threaded run state: the shared `failed_files` list (appended to by
every unit), the destination tree as a map from path to written content,
and the ordered trace of filesystem events. -/
structure St where
  failed_files : List (String × String)
  fs : String → Option String
  events : List Event

/-- `os.path.join` for the relative paths this script joins. -/
def pathJoin (a b : String) : String := a ++ "/" ++ b

/-- `os.path.dirname`: everything before the last `/` separator. -/
def dirname (p : String) : String :=
  String.intercalate "/" ((p.splitOn "/").dropLast)

/-- Overwriting a single path in the destination-tree map (the effect of a
completed `write_file_content`). -/
def fsWrite (fs : String → Option String) (p c : String) : String → Option String :=
  fun q => if q = p then some c else fs q

/-- Whether `pat` occurs at the start of `l` (character-list level). -/
def listHasPre (pat : List Char) (l : List Char) : Bool :=
  match pat, l with
  | [], _ => true
  | _ :: _, [] => false
  | a :: as, b :: bs => a == b && listHasPre as bs

/-- Whether `pat` occurs as a contiguous run anywhere in `l`. -/
def listHasSub (pat : List Char) (l : List Char) : Bool :=
  match l with
  | [] => listHasPre pat []
  | _ :: rest => listHasPre pat l || listHasSub pat rest

/-- Python's `pat in s` substring test on strings. -/
def strContains (s pat : String) : Bool := listHasSub pat.data s.data

/-- The marker `process_file` greps for in the `GitCommandError` message to
classify a fetch failure as a deletion skip. -/
def deletionMsg : String := "does not exist in"

/-- `'does not exist in' in str(e)` — the deletion-skip test. -/
def isDeletionError (msg : String) : Bool := strContains msg deletionMsg

/-- The sentinel file-path marker recorded when diff extraction fails for a
commit (`backup_script.py`, line 162). -/
def retrievalSentinel : String := "Files could not be retrieved"

/-- `get_commits` (lines 57–86): with no bounds, the full history; else the
commits whose timestamp is not before the start bound (when given) and not
after the end bound (when given), in history order.  The bounds stand for
the `datetime` objects `strptime` produces — midnight of the given day. -/
def get_commits (history : List Commit) (start_date end_date : Option Int) : List Commit :=
  match start_date, end_date with
  | none, none => history
  | _, _ =>
    history.filter fun commit =>
      (match start_date with
       | some s => !(commit.committed_date < s)
       | none => true)
      &&
      (match end_date with
       | some e => !(e < commit.committed_date)
       | none => true)

/-- The Boolean window test `get_commits` applies to one commit. -/
def inWindow (start_date end_date : Option Int) (t : Int) : Bool :=
  (match start_date with
   | some s => !(t < s)
   | none => true)
  &&
  (match end_date with
   | some e => !(e < t)
   | none => true)

/-- `process_file` (lines 109–131): fetch the file's content at the commit;
a `GitCommandError` whose message contains the deletion marker is a
deletion skip (no record, no write, normal return); any other fetch failure
appends one `(commit, file)` record and raises `BackupError` without
attempting the write; on success, make the parent directories and write,
and a write failure likewise appends one record and raises. -/
def process_file (env : Env) (commitSha file commit_backup_dir : String) (st : St) :
    St × Except String Unit :=
  match env.fetch commitSha file with
  | .gitError msg =>
    if isDeletionError msg then
      (st, Except.ok ())
    else
      ({ st with failed_files := st.failed_files ++ [(commitSha, file)] },
       Except.error ("Error processing file " ++ file ++ ": " ++ msg))
  | .otherError msg =>
    ({ st with failed_files := st.failed_files ++ [(commitSha, file)] },
     Except.error ("Error processing file " ++ file ++ ": " ++ msg))
  | .ok content =>
    let file_path := pathJoin commit_backup_dir file
    let st1 := { st with events := st.events ++ [Event.mkdirs (dirname file_path)] }
    if env.writeOk file_path content then
      ({ st1 with
          fs := fsWrite st1.fs file_path content,
          events := st1.events ++ [Event.fwrite file_path content] }, Except.ok ())
    else
      ({ st1 with failed_files := st1.failed_files ++ [(commitSha, file)] },
       Except.error ("Error processing file " ++ file))

/-- The file-unit loop inside `process_commit`: every file unit of the
commit runs (`asyncio.gather` does not cancel siblings), each threading the
shared state; the `BackupError` a unit raises is caught at the commit
boundary and only logged, so the loop returns the accumulated state. -/
def processFiles (env : Env) (commitSha commit_backup_dir : String) :
    List String → St → St
  | [], st => st
  | f :: fs, st =>
    processFiles env commitSha commit_backup_dir fs
      (process_file env commitSha f commit_backup_dir st).1

/-- `process_commit` (lines 133–145): make the commit's destination
subdirectory, then run one fetch+write unit per changed file; a
`BackupError` from a unit is caught here and logged, never re-raised. -/
def process_commit (env : Env) (commit_sha : String) (files : List String)
    (backup_dir : String) (st : St) : St :=
  let commit_backup_dir := pathJoin backup_dir commit_sha
  let st1 := { st with events := st.events ++ [Event.mkdirs commit_backup_dir] }
  processFiles env commit_sha commit_backup_dir files st1

/-- The diff-extraction stage of `backup_files` (lines 152–163): one
`get_changed_files` task per selected commit; a successful task adds its
`(commit, files)` entry to the map, a failed one appends one
`(commit, sentinel)` failure record and adds nothing. -/
def collectCommitFiles (env : Env) : List String → St → List (String × List String) × St
  | [], st => ([], st)
  | sha :: shas, st =>
    match env.extract sha with
    | .ok files =>
      let (m, st') := collectCommitFiles env shas st
      ((sha, files) :: m, st')
    | .error _ =>
      collectCommitFiles env shas
        { st with failed_files := st.failed_files ++ [(sha, retrievalSentinel)] }

/-- The commit-processing loop of `backup_files` (line 166): every commit
entry of the map is processed; `process_commit` never raises. -/
def processCommits (env : Env) (backup_dir : String) :
    List (String × List String) → St → St
  | [], st => st
  | (sha, files) :: rest, st =>
    processCommits env backup_dir rest (process_commit env sha files backup_dir st)

/-- `backup_files` (lines 147–166): select the commits, run the
diff-extraction stage to build the commit → files map, then process every
entry of the map. -/
def backup_files (env : Env) (backup_dir : String) (history : List Commit)
    (start_date end_date : Option Int) (st : St) : St :=
  let commit_shas := get_commits history start_date end_date
  let (commit_files, st1) := collectCommitFiles env (commit_shas.map Commit.hexsha) st
  processCommits env backup_dir commit_files st1

/-- The initial state of a run over a destination tree `fs0`. -/
def initSt (fs0 : String → Option String) : St :=
  { failed_files := [], fs := fs0, events := [] }

/-- One full run of the pipeline (the core of `main`, lines 168–178),
starting from destination tree `fs0`. -/
def run (env : Env) (backup_dir : String) (history : List Commit)
    (start_date end_date : Option Int) (fs0 : String → Option String) : St :=
  backup_files env backup_dir history start_date end_date (initSt fs0)

/-- The success/failure outcome `main` derives (lines 179–185): failure —
`sys.exit(1)` after the failure table — exactly when `failed_files` is
non-empty. -/
def mainSuccess (env : Env) (backup_dir : String) (history : List Commit)
    (start_date end_date : Option Int) (fs0 : String → Option String) : Bool :=
  if (run env backup_dir history start_date end_date fs0).failed_files = [] then
    true
  else
    false

/-! ## Derived descriptions of the pipeline

The definitions below do not add behaviour; they name the destination-path
map, the per-unit outcome classification, and the stage outputs that the
claims quantify over, so that the theorems can state them. -/

/-- The deterministic destination of a `BackupUnit`:
`backup_root/<commit_id>/<relative_file_path>`. -/
def destPath (backup_dir c f : String) : String :=
  pathJoin (pathJoin backup_dir c) f

/-- Whether the file unit for `f` at commit `c` (whose destination
subdirectory is `commit_backup_dir`) is a hard failure: a fetch failure
other than a deletion skip, or a failed write. -/
def fileHardFails (env : Env) (commit_backup_dir c f : String) : Bool :=
  match env.fetch c f with
  | .ok content => !env.writeOk (pathJoin commit_backup_dir f) content
  | .gitError msg => !isDeletionError msg
  | .otherError _ => true

/-- Whether the file unit for `f` at commit `c` is a deletion skip. -/
def fileIsDeletion (env : Env) (c f : String) : Bool :=
  match env.fetch c f with
  | .gitError msg => isDeletionError msg
  | _ => false

/-- Whether the file unit for `f` at commit `c` fetches and writes
successfully. -/
def fileSucceeds (env : Env) (commit_backup_dir c f : String) : Bool :=
  match env.fetch c f with
  | .ok content => env.writeOk (pathJoin commit_backup_dir f) content
  | _ => false

/-- Whether diff extraction succeeds for commit `c`. -/
def extractOk (env : Env) (c : String) : Bool :=
  match env.extract c with
  | .ok _ => true
  | .error _ => false

/-- The `ChangedFileMap` the extraction stage produces: one entry per
selected commit whose extraction succeeded, in selection order. -/
def commitFilesOf (env : Env) (shas : List String) : List (String × List String) :=
  shas.filterMap fun c =>
    match env.extract c with
    | .ok files => some (c, files)
    | .error _ => none

/-- The failure records the extraction stage appends: one sentinel record
per selected commit whose extraction failed, in selection order. -/
def extractFailures (env : Env) (shas : List String) : List (String × String) :=
  (shas.filter fun c => !extractOk env c).map fun c => (c, retrievalSentinel)

/-- The failure records one commit's file units append: one `(c, f)` record
per hard-failing file, in file-list order. -/
def commitHardFailures (env : Env) (backup_dir c : String) (files : List String) :
    List (String × String) :=
  (files.filter (fileHardFails env (pathJoin backup_dir c) c)).map fun f => (c, f)

/-- All `BackupUnit`s a `ChangedFileMap` induces, as (commit, file) pairs. -/
def unitsOf (m : List (String × List String)) : List (String × String) :=
  m.flatMap fun p => p.2.map fun f => (p.1, f)

/-- The content a successful fetch returns (and the empty string where the
fetch fails; it is only read under a success hypothesis). -/
def contentOf (env : Env) (c f : String) : String :=
  match env.fetch c f with
  | .ok s => s
  | .gitError _ => ""
  | .otherError _ => ""

/-- Whether the fetch itself (not the write) hard-fails for `(c, f)`: any
fetch outcome other than success or a deletion skip. -/
def fetchHardFails (env : Env) (c f : String) : Bool :=
  match env.fetch c f with
  | .ok _ => false
  | .gitError msg => !isDeletionError msg
  | .otherError _ => true

/-- The destination-tree transformation one commit's file units perform:
each succeeding unit overwrites its own destination path with the fetched
content; skipped and failed units leave the tree unchanged. -/
def fsAfterFiles (env : Env) (dir c : String) :
    List String → (String → Option String) → String → Option String
  | [], x => x
  | f :: fs, x =>
    fsAfterFiles env dir c fs
      (if fileSucceeds env dir c f then
        fsWrite x (pathJoin dir f) (contentOf env c f)
      else x)

/-- The destination-tree transformation the whole commit-processing stage
performs, entry by entry of the `ChangedFileMap`. -/
def fsAfterCommits (env : Env) (backup_dir : String) :
    List (String × List String) → (String → Option String) → String → Option String
  | [], x => x
  | (c, files) :: rest, x =>
    fsAfterCommits env backup_dir rest (fsAfterFiles env (pathJoin backup_dir c) c files x)

/-- The identifiers of the commits a run selects, in selection order. -/
def selectedShas (history : List Commit) (s e : Option Int) : List String :=
  (get_commits history s e).map Commit.hexsha

/-- All failure records one run collects: the extraction-stage sentinel
records followed by every commit's per-file hard-failure records. -/
def runFailures (env : Env) (backup_dir : String) (history : List Commit)
    (s e : Option Int) : List (String × String) :=
  extractFailures env (selectedShas history s e) ++
    (commitFilesOf env (selectedShas history s e)).flatMap fun p =>
      commitHardFailures env backup_dir p.1 p.2

/-- A tree transformation that only overwrites a fixed set of paths with
fixed values and leaves every other path alone.  Applying such a
transformation twice equals applying it once. -/
def IsOverwrite (F : (String → Option String) → String → Option String) : Prop :=
  ∃ w : String → Option String, ∀ x q,
    F x q = match w q with
            | some v => some v
            | none => x q

/-! ### Concrete environments used by the witnesses -/

/-- An empty initial state over an empty destination tree. -/
def wSt : St := initSt fun _ => none

/-- Every fetch reports the file as deleted at the commit. -/
def envDel : Env :=
  { extract := fun _ => Except.ok ["f.txt"],
    fetch := fun _ _ => FetchResult.gitError "path f.txt does not exist in abc",
    writeOk := fun _ _ => true }

/-- Extraction fails for every commit but "aa"; fetching "g.txt" hard-fails,
every other fetch succeeds; all writes succeed. -/
def envMix : Env :=
  { extract := fun c => if c = "aa" then Except.ok ["f.txt", "g.txt"] else Except.error "boom",
    fetch := fun _ f =>
      if f = "g.txt" then FetchResult.otherError "socket closed" else FetchResult.ok "hello",
    writeOk := fun _ _ => true }

/-- A two-commit history for the witnesses. -/
def histW : List Commit := [{ hexsha := "aa", committed_date := 5 }, { hexsha := "bb", committed_date := 9 }]

/-! ## Characterization lemmas -/

theorem not_decide_lt (a b : Int) : (!decide (a < b)) = decide (b ≤ a) := by
  by_cases h : a < b
  · simp [h, not_le.mpr h]
  · simp [h, le_of_not_lt h]

theorem get_commits_eq_filter (history : List Commit) (s e : Option Int) :
    get_commits history s e =
      history.filter fun c => inWindow s e c.committed_date := by
  cases s <;> cases e <;>
    simp [get_commits, inWindow]

theorem mem_get_commits (history : List Commit) (s e : Option Int) (c : Commit) :
    c ∈ get_commits history s e ↔
      c ∈ history ∧ inWindow s e c.committed_date = true := by
  rw [get_commits_eq_filter]
  exact List.mem_filter

/-- C2: the commit selector returns exactly the commits of the history
whose timestamp lies in the inclusive window — no bounds yields the full
history, only a start bound keeps the commits at/after it, only an end
bound keeps the commits at/before it — and the output is a sublist of the
history, so the original relative order is preserved. -/
theorem C2_get_commits_window (history : List Commit) (s e : Option Int) :
    get_commits history s e =
        (history.filter fun c => inWindow s e c.committed_date)
      ∧ get_commits history none none = history
      ∧ (∀ c, c ∈ get_commits history s e ↔
            c ∈ history ∧ inWindow s e c.committed_date = true)
      ∧ (get_commits history s e).Sublist history
      ∧ (∀ s0 : Int, get_commits history (some s0) none =
            history.filter fun c => s0 ≤ c.committed_date)
      ∧ (∀ e0 : Int, get_commits history none (some e0) =
            history.filter fun c => c.committed_date ≤ e0)
      ∧ (∀ s0 e0 : Int, get_commits history (some s0) (some e0) =
            history.filter fun c =>
              s0 ≤ c.committed_date ∧ c.committed_date ≤ e0) := by
  refine ⟨get_commits_eq_filter history s e, rfl,
    mem_get_commits history s e, ?_, ?_, ?_, ?_⟩
  · rw [get_commits_eq_filter]; exact List.filter_sublist history
  · intro s0
    simp only [get_commits]
    refine List.filter_congr ?_
    intro x _
    rw [Bool.and_true, not_decide_lt]
  · intro e0
    simp only [get_commits]
    refine List.filter_congr ?_
    intro x _
    rw [Bool.true_and, not_decide_lt]
  · intro s0 e0
    simp only [get_commits]
    refine List.filter_congr ?_
    intro x _
    rw [not_decide_lt, not_decide_lt, Bool.decide_and]


theorem process_file_failed (env : Env) (c f dir : String) (st : St) :
    ((process_file env c f dir st).1).failed_files =
      st.failed_files ++ (if fileHardFails env dir c f then [(c, f)] else []) := by
  cases h : env.fetch c f with
  | ok content =>
    by_cases hw : env.writeOk (pathJoin dir f) content <;>
      simp [process_file, fileHardFails, h, hw]
  | gitError msg =>
    by_cases hd : isDeletionError msg <;>
      simp [process_file, fileHardFails, h, hd]
  | otherError msg =>
    simp [process_file, fileHardFails, h]

theorem process_file_fs (env : Env) (c f dir : String) (st : St) :
    ((process_file env c f dir st).1).fs =
      if fileSucceeds env dir c f then
        fsWrite st.fs (pathJoin dir f) (contentOf env c f)
      else st.fs := by
  cases h : env.fetch c f with
  | ok content =>
    by_cases hw : env.writeOk (pathJoin dir f) content <;>
      simp [process_file, fileSucceeds, contentOf, h, hw]
  | gitError msg =>
    by_cases hd : isDeletionError msg <;>
      simp [process_file, fileSucceeds, contentOf, h, hd]
  | otherError msg =>
    simp [process_file, fileSucceeds, contentOf, h]

theorem process_file_result (env : Env) (c f dir : String) (st : St) :
    ((process_file env c f dir st).2).isOk = !fileHardFails env dir c f := by
  cases h : env.fetch c f with
  | ok content =>
    by_cases hw : env.writeOk (pathJoin dir f) content <;>
      simp [process_file, fileHardFails, h, hw, Except.isOk, Except.toBool]
  | gitError msg =>
    by_cases hd : isDeletionError msg <;>
      simp [process_file, fileHardFails, h, hd, Except.isOk, Except.toBool]
  | otherError msg =>
    simp [process_file, fileHardFails, h, Except.isOk, Except.toBool]

theorem process_file_events_ext (env : Env) (c f dir : String) (st : St) :
    ∃ tail, ((process_file env c f dir st).1).events = st.events ++ tail := by
  cases h : env.fetch c f with
  | ok content =>
    by_cases hw : env.writeOk (pathJoin dir f) content
    · exact ⟨[Event.mkdirs (dirname (pathJoin dir f)),
              Event.fwrite (pathJoin dir f) content],
        by simp [process_file, h, hw]⟩
    · exact ⟨[Event.mkdirs (dirname (pathJoin dir f))],
        by simp [process_file, h, hw]⟩
  | gitError msg =>
    by_cases hd : isDeletionError msg <;>
      exact ⟨[], by simp [process_file, h, hd]⟩
  | otherError msg =>
    exact ⟨[], by simp [process_file, h]⟩

theorem processFiles_failed (env : Env) (c dir : String) (files : List String) (st : St) :
    (processFiles env c dir files st).failed_files =
      st.failed_files ++ (files.filter (fileHardFails env dir c)).map (fun f => (c, f)) := by
  induction files generalizing st with
  | nil => simp [processFiles]
  | cons f fs ih =>
    simp only [processFiles]
    rw [ih, process_file_failed]
    by_cases hf : fileHardFails env dir c f <;>
      simp [hf, List.filter_cons, List.append_assoc]

theorem processFiles_fs (env : Env) (c dir : String) (files : List String) (st : St) :
    (processFiles env c dir files st).fs = fsAfterFiles env dir c files st.fs := by
  induction files generalizing st with
  | nil => simp [processFiles, fsAfterFiles]
  | cons f fs ih =>
    simp only [processFiles, fsAfterFiles]
    rw [ih, process_file_fs]

theorem processFiles_events_ext (env : Env) (c dir : String) (files : List String) (st : St) :
    ∃ tail, (processFiles env c dir files st).events = st.events ++ tail := by
  induction files generalizing st with
  | nil => exact ⟨[], by simp [processFiles]⟩
  | cons f fs ih =>
    obtain ⟨t1, h1⟩ := process_file_events_ext env c f dir st
    obtain ⟨t2, h2⟩ := ih ((process_file env c f dir st).1)
    exact ⟨t1 ++ t2, by simp only [processFiles]; rw [h2, h1, List.append_assoc]⟩

theorem collectCommitFiles_spec (env : Env) (shas : List String) (st : St) :
    collectCommitFiles env shas st =
      (commitFilesOf env shas,
       { st with failed_files := st.failed_files ++ extractFailures env shas }) := by
  induction shas generalizing st with
  | nil => simp [collectCommitFiles, commitFilesOf, extractFailures]
  | cons sha shas ih =>
    cases h : env.extract sha with
    | ok files =>
      simp [collectCommitFiles, commitFilesOf, extractFailures, extractOk, h, ih,
        List.filter_cons]
    | error msg =>
      simp [collectCommitFiles, commitFilesOf, extractFailures, extractOk, h, ih,
        List.filter_cons, List.append_assoc]

theorem processCommits_failed (env : Env) (bdir : String)
    (m : List (String × List String)) (st : St) :
    (processCommits env bdir m st).failed_files =
      st.failed_files ++ m.flatMap (fun p => commitHardFailures env bdir p.1 p.2) := by
  induction m generalizing st with
  | nil => simp [processCommits]
  | cons p rest ih =>
    obtain ⟨c, files⟩ := p
    simp only [processCommits]
    rw [ih]
    simp only [process_commit]
    rw [processFiles_failed]
    simp [commitHardFailures, List.append_assoc]

theorem processCommits_fs (env : Env) (bdir : String)
    (m : List (String × List String)) (st : St) :
    (processCommits env bdir m st).fs = fsAfterCommits env bdir m st.fs := by
  induction m generalizing st with
  | nil => simp [processCommits, fsAfterCommits]
  | cons p rest ih =>
    obtain ⟨c, files⟩ := p
    simp only [processCommits, fsAfterCommits]
    rw [ih]
    simp only [process_commit]
    rw [processFiles_fs]

theorem backup_files_failed (env : Env) (bdir : String) (history : List Commit)
    (s e : Option Int) (st : St) :
    (backup_files env bdir history s e st).failed_files =
      st.failed_files ++ runFailures env bdir history s e := by
  simp only [backup_files, runFailures, selectedShas]
  rw [collectCommitFiles_spec]
  rw [processCommits_failed]
  simp [List.append_assoc]

theorem run_failed (env : Env) (bdir : String) (history : List Commit)
    (s e : Option Int) (fs0 : String → Option String) :
    (run env bdir history s e fs0).failed_files = runFailures env bdir history s e := by
  rw [run, backup_files_failed]
  simp [initSt]

theorem run_fs (env : Env) (bdir : String) (history : List Commit)
    (s e : Option Int) (fs0 : String → Option String) :
    (run env bdir history s e fs0).fs =
      fsAfterCommits env bdir (commitFilesOf env (selectedShas history s e)) fs0 := by
  simp only [run, backup_files, selectedShas]
  rw [collectCommitFiles_spec]
  rw [processCommits_fs]
  simp [initSt]

theorem mem_commitFilesOf (env : Env) (shas : List String) (c : String)
    (files : List String) :
    (c, files) ∈ commitFilesOf env shas ↔
      c ∈ shas ∧ env.extract c = Except.ok files := by
  simp only [commitFilesOf, List.mem_filterMap]
  constructor
  · rintro ⟨a, ha, hmatch⟩
    cases h : env.extract a with
    | ok fs =>
      rw [h] at hmatch
      simp only [Option.some.injEq, Prod.mk.injEq] at hmatch
      obtain ⟨hac, hfs⟩ := hmatch
      subst hac
      subst hfs
      exact ⟨ha, h⟩
    | error msg =>
      rw [h] at hmatch
      simp at hmatch
  · rintro ⟨hc, he⟩
    exact ⟨c, hc, by rw [he]⟩

theorem mem_unitsOf (m : List (String × List String)) (c f : String) :
    (c, f) ∈ unitsOf m ↔ ∃ files, (c, files) ∈ m ∧ f ∈ files := by
  simp only [unitsOf, List.mem_flatMap, List.mem_map]
  constructor
  · rintro ⟨p, hp, g, hg, heq⟩
    simp only [Prod.mk.injEq] at heq
    obtain ⟨h1, h2⟩ := heq
    exact ⟨p.2, by rw [← h1]; exact hp, by rw [← h2]; exact hg⟩
  · rintro ⟨files, hm, hf⟩
    exact ⟨(c, files), hm, f, hf, rfl⟩

theorem commitFilesOf_keys_sublist (env : Env) :
    ∀ shas : List String, ((commitFilesOf env shas).map Prod.fst).Sublist shas
  | [] => List.Sublist.refl []
  | sha :: shas => by
    cases h : env.extract sha with
    | ok files =>
      simp only [commitFilesOf, List.filterMap_cons, h, List.map_cons]
      exact List.Sublist.cons₂ sha (commitFilesOf_keys_sublist env shas)
    | error msg =>
      simp only [commitFilesOf, List.filterMap_cons, h]
      exact List.Sublist.cons sha (commitFilesOf_keys_sublist env shas)

theorem unitsOf_nodup :
    ∀ m : List (String × List String),
      (m.map Prod.fst).Nodup → (∀ p ∈ m, p.2.Nodup) → (unitsOf m).Nodup
  | [], _, _ => List.nodup_nil
  | (c, files) :: rest, hk, hv => by
    simp only [List.map_cons, List.nodup_cons] at hk
    simp only [unitsOf, List.flatMap_cons]
    rw [List.nodup_append]
    refine ⟨?_, ?_, ?_⟩
    · refine List.Nodup.map ?_ (hv (c, files) (List.mem_cons_self _ _))
      intro a b hab
      simpa using hab
    · exact unitsOf_nodup rest hk.2 fun p hp => hv p (List.mem_cons_of_mem _ hp)
    · intro u hu1 hu2
      obtain ⟨g, _, hgu⟩ := List.mem_map.mp hu1
      obtain ⟨p, hp, hmemp⟩ := List.mem_flatMap.mp hu2
      obtain ⟨g', _, hgu'⟩ := List.mem_map.mp hmemp
      apply hk.1
      have h1 : u.1 = c := by rw [← hgu]
      have h2 : u.1 = p.1 := by rw [← hgu']
      rw [← h1, h2]
      exact List.mem_map_of_mem Prod.fst hp

theorem listSlashSplit :
    ∀ (a1 : List Char) (b1 : List Char) (a2 : List Char) (b2 : List Char),
      '/' ∉ a1 → '/' ∉ a2 → a1 ++ '/' :: b1 = a2 ++ '/' :: b2 →
      a1 = a2 ∧ b1 = b2
  | [], b1, [], b2, _, _, h => by simpa using h
  | [], b1, x :: xs, b2, _, h2, h => by
    simp only [List.nil_append, List.cons_append, List.cons.injEq] at h
    exact absurd (h.1 ▸ List.mem_cons_self x xs) h2
  | x :: xs, b1, [], b2, h1, _, h => by
    simp only [List.nil_append, List.cons_append, List.cons.injEq] at h
    exact absurd (h.1.symm ▸ List.mem_cons_self x xs) h1
  | x :: xs, b1, y :: ys, b2, h1, h2, h => by
    simp only [List.cons_append, List.cons.injEq] at h
    have hrec := listSlashSplit xs b1 ys b2
      (fun hm => h1 (List.mem_cons_of_mem _ hm))
      (fun hm => h2 (List.mem_cons_of_mem _ hm)) h.2
    exact ⟨by rw [h.1, hrec.1], hrec.2⟩

theorem pathJoin_data (a b : String) :
    (pathJoin a b).data = a.data ++ '/' :: b.data := by
  have hs : ("/" : String).data = ['/'] := rfl
  simp [pathJoin, String.data_append, hs]

theorem pathJoin_right_inj (d a b : String) (h : pathJoin d a = pathJoin d b) :
    a = b := by
  have hd := congrArg String.data h
  rw [pathJoin_data, pathJoin_data] at hd
  have hc := List.append_cancel_left hd
  exact String.ext (List.cons.injEq .. ▸ hc).2

theorem destPath_inj (bdir c1 f1 c2 f2 : String)
    (h1 : '/' ∉ c1.data) (h2 : '/' ∉ c2.data)
    (h : destPath bdir c1 f1 = destPath bdir c2 f2) : c1 = c2 ∧ f1 = f2 := by
  have hd := congrArg String.data h
  simp only [destPath, pathJoin_data, List.append_assoc, List.cons_append] at hd
  have hc := List.append_cancel_left hd
  simp only [List.cons.injEq, true_and] at hc
  have := listSlashSplit c1.data f1.data c2.data f2.data h1 h2 hc
  exact ⟨String.ext this.1, String.ext this.2⟩

theorem fsAfterFiles_untouched (env : Env) (dir c : String) :
    ∀ (files : List String) (x : String → Option String) (q : String),
      (∀ f ∈ files, pathJoin dir f ≠ q) →
      fsAfterFiles env dir c files x q = x q
  | [], _, _, _ => rfl
  | f :: fs, x, q, h => by
    simp only [fsAfterFiles]
    rw [fsAfterFiles_untouched env dir c fs _ q
      (fun g hg => h g (List.mem_cons_of_mem _ hg))]
    by_cases hs : fileSucceeds env dir c f = true <;>
      simp [hs, fsWrite, Ne.symm (h f (List.mem_cons_self f fs))]

theorem fsAfterFiles_preserve (env : Env) (dir c q : String) (v : String) :
    ∀ (files : List String) (x : String → Option String),
      x q = some v →
      (∀ f ∈ files, pathJoin dir f = q → fileSucceeds env dir c f = true →
        contentOf env c f = v) →
      fsAfterFiles env dir c files x q = some v
  | [], _, hx, _ => hx
  | f :: fs, x, hx, hval => by
    simp only [fsAfterFiles]
    apply fsAfterFiles_preserve env dir c q v fs
    · by_cases hs : fileSucceeds env dir c f = true
      · by_cases hpq : q = pathJoin dir f
        · simp [hs, fsWrite, hpq,
            hval f (List.mem_cons_self f fs) hpq.symm hs]
        · simp [hs, fsWrite, hpq, hx]
      · simpa [hs] using hx
    · intro g hg hq hsg
      exact hval g (List.mem_cons_of_mem f hg) hq hsg

theorem fsAfterFiles_written (env : Env) (dir c : String) :
    ∀ (files : List String) (x : String → Option String) (f : String),
      f ∈ files → fileSucceeds env dir c f = true →
      fsAfterFiles env dir c files x (pathJoin dir f) = some (contentOf env c f)
  | [], _, _, hf, _ => absurd hf (List.not_mem_nil _)
  | g :: gs, x, f, hf, hs => by
    by_cases hmem : f ∈ gs
    · simp only [fsAfterFiles]
      exact fsAfterFiles_written env dir c gs _ f hmem hs
    · have hfg : f = g := by
        rcases List.mem_cons.mp hf with h | h
        · exact h
        · exact absurd h hmem
      subst hfg
      simp only [fsAfterFiles, hs, if_true]
      apply fsAfterFiles_preserve env dir c (pathJoin dir f) (contentOf env c f) gs
      · simp [fsWrite]
      · intro g' hg' hq _
        have : g' = f := pathJoin_right_inj dir g' f hq
        subst this
        exact absurd hg' hmem

theorem fsAfterCommits_preserve (env : Env) (bdir q : String) (v : String) :
    ∀ (m : List (String × List String)) (x : String → Option String),
      x q = some v →
      (∀ p ∈ m, ∀ f ∈ p.2, destPath bdir p.1 f = q →
        fileSucceeds env (pathJoin bdir p.1) p.1 f = true →
        contentOf env p.1 f = v) →
      fsAfterCommits env bdir m x q = some v
  | [], _, hx, _ => hx
  | (c, files) :: rest, x, hx, hval => by
    simp only [fsAfterCommits]
    apply fsAfterCommits_preserve env bdir q v rest
    · apply fsAfterFiles_preserve env (pathJoin bdir c) c q v files x hx
      intro f hf hq hs
      exact hval (c, files) (List.mem_cons_self _ _) f hf hq hs
    · intro p hp f hf hq hs
      exact hval p (List.mem_cons_of_mem _ hp) f hf hq hs

theorem fsAfterCommits_written (env : Env) (bdir : String) :
    ∀ (m : List (String × List String)) (x : String → Option String)
      (c : String) (files : List String) (f : String),
      (c, files) ∈ m → f ∈ files →
      fileSucceeds env (pathJoin bdir c) c f = true →
      (∀ p ∈ m, '/' ∉ p.1.data) →
      fsAfterCommits env bdir m x (destPath bdir c f) = some (contentOf env c f)
  | [], _, _, _, _, hm, _, _, _ => absurd hm (List.not_mem_nil _)
  | (c', files') :: rest, x, c, files, f, hm, hf, hs, hsf => by
    have hcsf : '/' ∉ c.data := hsf (c, files) hm
    by_cases hmem : (c, files) ∈ rest
    · simp only [fsAfterCommits]
      exact fsAfterCommits_written env bdir rest _ c files f hmem hf hs
        (fun p hp => hsf p (List.mem_cons_of_mem _ hp))
    · have heq : (c, files) = (c', files') := by
        rcases List.mem_cons.mp hm with h | h
        · exact h
        · exact absurd h hmem
      have hc : c = c' := congrArg Prod.fst heq
      have hfiles : files = files' := congrArg Prod.snd heq
      subst hc
      subst hfiles
      simp only [fsAfterCommits]
      apply fsAfterCommits_preserve env bdir (destPath bdir c f) (contentOf env c f) rest
      · exact fsAfterFiles_written env (pathJoin bdir c) c files x f hf hs
      · intro p hp g hg hq _
        have hps : '/' ∉ p.1.data := hsf p (List.mem_cons_of_mem _ hp)
        obtain ⟨h1, h2⟩ := destPath_inj bdir p.1 g c f hps hcsf hq
        rw [h1, h2]

theorem fsAfterFiles_isOverwrite (env : Env) (dir c : String) :
    ∀ files : List String, IsOverwrite (fsAfterFiles env dir c files)
  | [] => ⟨fun _ => none, fun _ _ => rfl⟩
  | f :: fs => by
    obtain ⟨w, hw⟩ := fsAfterFiles_isOverwrite env dir c fs
    by_cases hs : fileSucceeds env dir c f = true
    · refine ⟨fun q =>
        match w q with
        | some v => some v
        | none => if q = pathJoin dir f then some (contentOf env c f) else none,
        fun x q => ?_⟩
      simp only [fsAfterFiles, hs, if_true]
      rw [hw]
      cases w q with
      | some v => rfl
      | none => by_cases hq : q = pathJoin dir f <;> simp [hq, fsWrite]
    · refine ⟨w, fun x q => ?_⟩
      simp only [fsAfterFiles, hs, if_false]
      rw [hw]
      cases w q <;> simp

theorem fsAfterCommits_isOverwrite (env : Env) (bdir : String) :
    ∀ m : List (String × List String), IsOverwrite (fsAfterCommits env bdir m)
  | [] => ⟨fun _ => none, fun _ _ => rfl⟩
  | (c, files) :: rest => by
    obtain ⟨wr, hwr⟩ := fsAfterCommits_isOverwrite env bdir rest
    obtain ⟨wf, hwf⟩ := fsAfterFiles_isOverwrite env (pathJoin bdir c) c files
    refine ⟨fun q =>
      match wr q with
      | some v => some v
      | none => wf q,
      fun x q => ?_⟩
    simp only [fsAfterCommits]
    rw [hwr, hwf]
    cases wr q <;> cases wf q <;> rfl

theorem isOverwrite_idem {F : (String → Option String) → String → Option String}
    (h : IsOverwrite F) (x : String → Option String) : F (F x) = F x := by
  obtain ⟨w, hw⟩ := h
  funext q
  rw [hw, hw]
  cases w q <;> rfl

theorem mem_extractFailures (env : Env) (shas : List String) (c x : String)
    (h : (c, x) ∈ extractFailures env shas) : c ∈ shas ∧ x = retrievalSentinel := by
  simp only [extractFailures, List.mem_map] at h
  obtain ⟨a, ha, heq⟩ := h
  simp only [Prod.mk.injEq] at heq
  obtain ⟨h1, h2⟩ := heq
  subst h1
  exact ⟨(List.mem_filter.mp ha).1, h2.symm⟩

theorem extractFailures_count (env : Env) :
    ∀ shas : List String, shas.Nodup → ∀ c : String, c ∈ shas →
      extractOk env c = false →
      (extractFailures env shas).count (c, retrievalSentinel) = 1
  | [], _, c, hc, _ => absurd hc (List.not_mem_nil c)
  | sha :: shas, hnd, c, hc, hex => by
    obtain ⟨hnotin, hnd'⟩ := List.nodup_cons.mp hnd
    by_cases hcs : c = sha
    · subst hcs
      have hzero : (extractFailures env shas).count (c, retrievalSentinel) = 0 :=
        List.count_eq_zero.mpr fun hmem =>
          hnotin (mem_extractFailures env shas c _ hmem).1
      have hcons : extractFailures env (c :: shas) =
          (c, retrievalSentinel) :: extractFailures env shas := by
        simp [extractFailures, List.filter_cons, hex]
      rw [hcons, List.count_cons_self, hzero]
    · have hcmem : c ∈ shas := by
        rcases List.mem_cons.mp hc with h | h
        · exact absurd h hcs
        · exact h
      have hne : (c, retrievalSentinel) ≠ (sha, retrievalSentinel) := by
        intro hcontra
        exact hcs (congrArg Prod.fst hcontra)
      by_cases hp : extractOk env sha = true
      · have hcons : extractFailures env (sha :: shas) = extractFailures env shas := by
          simp [extractFailures, List.filter_cons, hp]
        rw [hcons]
        exact extractFailures_count env shas hnd' c hcmem hex
      · have hcons : extractFailures env (sha :: shas) =
            (sha, retrievalSentinel) :: extractFailures env shas := by
          simp only [Bool.not_eq_true] at hp
          simp [extractFailures, List.filter_cons, hp]
        rw [hcons, List.count_cons_of_ne hne]
        exact extractFailures_count env shas hnd' c hcmem hex

/-! ## The claims -/

/-- C1: a fetch reporting the file as absent at the commit (a
`GitCommandError` whose message contains the deletion marker) is a deletion
skip — no `FailureRecord`, no write, normal continuation; any other fetch
failure appends exactly one `(commit, file)` record and never attempts the
write (the state's tree and event trace are untouched) while raising
`BackupError`. -/
theorem C1_deletion_skip_vs_hard_fetch (env : Env) (c f dir : String) (st : St) :
    (fileIsDeletion env c f = true →
      process_file env c f dir st = (st, Except.ok ()))
    ∧ (fetchHardFails env c f = true →
      (process_file env c f dir st).1.failed_files = st.failed_files ++ [(c, f)]
        ∧ (process_file env c f dir st).1.fs = st.fs
        ∧ (process_file env c f dir st).1.events = st.events
        ∧ ∃ msg, (process_file env c f dir st).2 = Except.error msg) := by
  constructor
  · intro hd
    cases h : env.fetch c f with
    | gitError msg =>
      have hdel : isDeletionError msg = true := by
        simpa [fileIsDeletion, h] using hd
      simp [process_file, h, hdel]
    | ok content => simp [fileIsDeletion, h] at hd
    | otherError msg => simp [fileIsDeletion, h] at hd
  · intro hh
    cases h : env.fetch c f with
    | ok content => simp [fetchHardFails, h] at hh
    | gitError msg =>
      have hdel : isDeletionError msg = false := by
        simpa [fetchHardFails, h] using hh
      simp [process_file, h, hdel]
    | otherError msg => simp [process_file, h]

/-- C3: every extraction, fetch, or write failure is converted to exactly
one `FailureRecord` where it occurs and the run still processes everything:
the final failure list is exactly the extraction-stage records followed by
every commit's per-file hard-failure records, and every unit that fetches
and writes successfully has its content at its destination path in the
final tree — no other unit's failure removes or prevents it. -/
theorem C3_failures_confined (env : Env) (bdir : String) (history : List Commit)
    (s e : Option Int) (fs0 : String → Option String)
    (hsf : ∀ c ∈ selectedShas history s e, '/' ∉ c.data) :
    ((run env bdir history s e fs0).failed_files = runFailures env bdir history s e)
    ∧ (∀ c files f, (c, files) ∈ commitFilesOf env (selectedShas history s e) →
        f ∈ files → fileSucceeds env (pathJoin bdir c) c f = true →
        (run env bdir history s e fs0).fs (destPath bdir c f)
          = some (contentOf env c f)) := by
  refine ⟨run_failed env bdir history s e fs0, ?_⟩
  intro c files f hm hf hsucc
  rw [run_fs]
  apply fsAfterCommits_written env bdir _ fs0 c files f hm hf hsucc
  intro p hp
  have hkey : p.1 ∈ selectedShas history s e :=
    (commitFilesOf_keys_sublist env (selectedShas history s e)).subset
      (List.mem_map_of_mem Prod.fst hp)
  exact hsf p.1 hkey

/-- C4: the commit processor first creates the commit's destination
subdirectory (its `mkdirs` event precedes everything the file units add),
runs one unit per file of the entry and accounts for all of them (the
commit adds exactly its per-file hard-failure records), and at run end the
failure count is the sum of the extraction-stage failures and every
commit's per-file hard failures. -/
theorem C4_commit_dispatch_and_failure_count (env : Env) (bdir c : String)
    (files : List String) (st : St) (history : List Commit) (s e : Option Int)
    (fs0 : String → Option String) :
    (∃ tail, (process_commit env c files bdir st).events =
        st.events ++ Event.mkdirs (pathJoin bdir c) :: tail)
    ∧ (process_commit env c files bdir st).failed_files =
        st.failed_files ++ commitHardFailures env bdir c files
    ∧ (run env bdir history s e fs0).failed_files.length =
        (extractFailures env (selectedShas history s e)).length
          + ((commitFilesOf env (selectedShas history s e)).map
              (fun p => (commitHardFailures env bdir p.1 p.2).length)).sum := by
  refine ⟨?_, ?_, ?_⟩
  · obtain ⟨tail, ht⟩ := processFiles_events_ext env c (pathJoin bdir c) files
      { st with events := st.events ++ [Event.mkdirs (pathJoin bdir c)] }
    exact ⟨tail, by simpa [process_commit, List.append_assoc] using ht⟩
  · simp only [process_commit]
    rw [processFiles_failed]
    simp [commitHardFailures]
  · rw [run_failed]
    simp [runFailures, List.length_append, List.length_flatMap, Function.comp_def]

/-- C5: a commit whose diff extraction fails contributes exactly one
sentinel `FailureRecord`, is absent from the `ChangedFileMap`, induces no
`BackupUnit`, and every other commit whose extraction succeeds still gets
its entry. -/
theorem C5_extraction_failure_isolated (env : Env) (shas : List String) (st : St)
    (c : String) (msg : String)
    (hnd : shas.Nodup) (hc : c ∈ shas) (he : env.extract c = Except.error msg) :
    ((collectCommitFiles env shas st).2.failed_files =
        st.failed_files ++ extractFailures env shas)
    ∧ (extractFailures env shas).count (c, retrievalSentinel) = 1
    ∧ (∀ files, (c, files) ∉ (collectCommitFiles env shas st).1)
    ∧ (∀ f, (c, f) ∉ unitsOf (collectCommitFiles env shas st).1)
    ∧ (∀ c' files', c' ∈ shas → env.extract c' = Except.ok files' →
        (c', files') ∈ (collectCommitFiles env shas st).1) := by
  have hspec := collectCommitFiles_spec env shas st
  refine ⟨by rw [hspec], ?_, ?_, ?_, ?_⟩
  · exact extractFailures_count env shas hnd c hc (by simp [extractOk, he])
  · intro files hmem
    rw [hspec] at hmem
    obtain ⟨_, hok⟩ := (mem_commitFilesOf env shas c files).mp hmem
    rw [he] at hok
    exact Except.noConfusion hok
  · intro f hmem
    rw [hspec] at hmem
    obtain ⟨files, hm, _⟩ := (mem_unitsOf (commitFilesOf env shas) c f).mp hmem
    obtain ⟨_, hok⟩ := (mem_commitFilesOf env shas c files).mp hm
    rw [he] at hok
    exact Except.noConfusion hok
  · intro c' files' hc' hok
    rw [hspec]
    exact (mem_commitFilesOf env shas c' files').mpr ⟨hc', hok⟩

/-- C6: a completed write is a deterministic overwrite (re-writing the same
path with the same content changes nothing), and re-running the whole
pipeline over the same commit set on top of the first run's tree reproduces
byte-identical content and the same failure list. -/
theorem C6_rerun_idempotent (env : Env) (bdir : String) (history : List Commit)
    (s e : Option Int) (fs0 : String → Option String) :
    (∀ (x : String → Option String) (p v : String),
      fsWrite (fsWrite x p v) p v = fsWrite x p v)
    ∧ (run env bdir history s e (run env bdir history s e fs0).fs).fs
        = (run env bdir history s e fs0).fs
    ∧ (run env bdir history s e (run env bdir history s e fs0).fs).failed_files
        = (run env bdir history s e fs0).failed_files := by
  refine ⟨?_, ?_, ?_⟩
  · intro x p v
    funext q
    by_cases h : q = p <;> simp [fsWrite, h]
  · rw [run_fs, run_fs]
    exact isOverwrite_idem (fsAfterCommits_isOverwrite env bdir _) fs0
  · rw [run_failed, run_failed]

/-- C8: the `BackupUnit`s one run dispatches are pairwise distinct (each
unit attempted at most once), and — commit identifiers being slash-free —
distinct units always map to distinct destination paths under
`backup_root/<commit_id>/<relative_file_path>`. -/
theorem C8_units_once_distinct_paths (env : Env) (bdir : String)
    (history : List Commit) (s e : Option Int)
    (hnd : (selectedShas history s e).Nodup)
    (hfnd : ∀ p ∈ commitFilesOf env (selectedShas history s e), p.2.Nodup)
    (hsf : ∀ c ∈ selectedShas history s e, '/' ∉ c.data) :
    (unitsOf (commitFilesOf env (selectedShas history s e))).Nodup
    ∧ (∀ u ∈ unitsOf (commitFilesOf env (selectedShas history s e)),
       ∀ u' ∈ unitsOf (commitFilesOf env (selectedShas history s e)),
        destPath bdir u.1 u.2 = destPath bdir u'.1 u'.2 → u = u') := by
  have hkeys : ((commitFilesOf env (selectedShas history s e)).map Prod.fst).Nodup :=
    (commitFilesOf_keys_sublist env (selectedShas history s e)).nodup hnd
  refine ⟨unitsOf_nodup _ hkeys hfnd, ?_⟩
  intro u hu u' hu' hpath
  obtain ⟨c, f⟩ := u
  obtain ⟨c', f'⟩ := u'
  obtain ⟨files1, hm1, _⟩ :=
    (mem_unitsOf (commitFilesOf env (selectedShas history s e)) c f).mp hu
  obtain ⟨files2, hm2, _⟩ :=
    (mem_unitsOf (commitFilesOf env (selectedShas history s e)) c' f').mp hu'
  have hc : c ∈ selectedShas history s e :=
    (commitFilesOf_keys_sublist env (selectedShas history s e)).subset
      (List.mem_map_of_mem Prod.fst hm1)
  have hc' : c' ∈ selectedShas history s e :=
    (commitFilesOf_keys_sublist env (selectedShas history s e)).subset
      (List.mem_map_of_mem Prod.fst hm2)
  obtain ⟨h1, h2⟩ := destPath_inj bdir c f c' f' (hsf c hc) (hsf c' hc') hpath
  rw [h1, h2]

/-- C9: the run fails exactly when the collected failure list is non-empty
and succeeds exactly when it is empty. -/
theorem C9_result_iff_failures (env : Env) (bdir : String) (history : List Commit)
    (s e : Option Int) (fs0 : String → Option String) :
    (mainSuccess env bdir history s e fs0 = true ↔
      (run env bdir history s e fs0).failed_files = [])
    ∧ (mainSuccess env bdir history s e fs0 = false ↔
      (run env bdir history s e fs0).failed_files ≠ []) := by
  by_cases h : (run env bdir history s e fs0).failed_files = [] <;>
    simp [mainSuccess, h]

/-- C10: on a hard per-file failure the `(commit, file)` record is in the
state the file unit returns alongside the raised `BackupError` (the append
happens before the raise), and the record is present in the commit
processor's final state for every hard-failing file of the commit. -/
theorem C10_record_appended_before_raise (env : Env) (c f dir : String) (st : St) :
    (∀ msg, (process_file env c f dir st).2 = Except.error msg →
      (process_file env c f dir st).1.failed_files = st.failed_files ++ [(c, f)]
        ∧ (c, f) ∈ (process_file env c f dir st).1.failed_files)
    ∧ (∀ (bdir : String) (files : List String) (st' : St),
        f ∈ files → fileHardFails env (pathJoin bdir c) c f = true →
        (c, f) ∈ (process_commit env c files bdir st').failed_files) := by
  constructor
  · intro msg hmsg
    have herr : (process_file env c f dir st).2.isOk = false := by
      rw [hmsg]
      simp [Except.isOk, Except.toBool]
    rw [process_file_result] at herr
    have hh : fileHardFails env dir c f = true := by simpa using herr
    constructor
    · rw [process_file_failed, hh]
      simp
    · rw [process_file_failed, hh]
      simp
  · intro bdir files st' hf hh
    simp only [process_commit]
    rw [processFiles_failed]
    simp only [List.mem_append]
    right
    exact List.mem_map.mpr ⟨f, List.mem_filter.mpr ⟨hf, hh⟩, rfl⟩

/-! ## Witnesses -/

/-- Witness for C1 at concrete inputs: a deletion-style fetch error on one
environment, a hard fetch error on another. -/
theorem C1_witness :
    (fileIsDeletion envDel "aa" "f.txt" = true
      ∧ process_file envDel "aa" "f.txt" "d" wSt = (wSt, Except.ok ()))
    ∧ (fetchHardFails envMix "aa" "g.txt" = true
      ∧ (process_file envMix "aa" "g.txt" "d" wSt).1.failed_files =
          wSt.failed_files ++ [("aa", "g.txt")]) :=
  ⟨⟨by decide,
    (C1_deletion_skip_vs_hard_fetch envDel "aa" "f.txt" "d" wSt).1 (by decide)⟩,
   ⟨by decide,
    ((C1_deletion_skip_vs_hard_fetch envMix "aa" "g.txt" "d" wSt).2 (by decide)).1⟩⟩

/-- Witness for C3 at concrete inputs: with slash-free commit identifiers,
the unit that succeeds ends up written even though a sibling unit
hard-fails and a sibling commit's extraction fails. -/
theorem C3_witness :
    (∀ c ∈ selectedShas histW none none, '/' ∉ c.data)
    ∧ ("aa", ["f.txt", "g.txt"]) ∈ commitFilesOf envMix (selectedShas histW none none)
    ∧ ("f.txt" : String) ∈ (["f.txt", "g.txt"] : List String)
    ∧ fileSucceeds envMix (pathJoin "root" "aa") "aa" "f.txt" = true
    ∧ (run envMix "root" histW none none (fun _ => none)).fs
        (destPath "root" "aa" "f.txt") = some (contentOf envMix "aa" "f.txt") :=
  ⟨by decide, by decide, by decide, by decide,
   (C3_failures_confined envMix "root" histW none none (fun _ => none)
      (by decide)).2 "aa" ["f.txt", "g.txt"] "f.txt" (by decide) (by decide) (by decide)⟩

/-- Witness for C5 at concrete inputs: commit "bb" fails extraction and
contributes exactly one sentinel record and no unit. -/
theorem C5_witness :
    (["aa", "bb"] : List String).Nodup
    ∧ ("bb" : String) ∈ (["aa", "bb"] : List String)
    ∧ envMix.extract "bb" = Except.error "boom"
    ∧ (extractFailures envMix ["aa", "bb"]).count ("bb", retrievalSentinel) = 1
    ∧ (∀ f, ("bb", f) ∉ unitsOf (collectCommitFiles envMix ["aa", "bb"] wSt).1) :=
  ⟨by decide, by decide, rfl,
   (C5_extraction_failure_isolated envMix ["aa", "bb"] wSt "bb" "boom"
      (by decide) (by decide) rfl).2.1,
   (C5_extraction_failure_isolated envMix ["aa", "bb"] wSt "bb" "boom"
      (by decide) (by decide) rfl).2.2.2.1⟩

/-- Witness for C8 at concrete inputs. -/
theorem C8_witness :
    (selectedShas histW none none).Nodup
    ∧ (∀ p ∈ commitFilesOf envMix (selectedShas histW none none), p.2.Nodup)
    ∧ (∀ c ∈ selectedShas histW none none, '/' ∉ c.data)
    ∧ (unitsOf (commitFilesOf envMix (selectedShas histW none none))).Nodup :=
  ⟨by decide, by decide, by decide,
   (C8_units_once_distinct_paths envMix "root" histW none none
      (by decide) (by decide) (by decide)).1⟩

/-- Witness for C10 at concrete inputs: the hard-failing unit's record is in
the returned state alongside the raised error, and in the commit
processor's final state. -/
theorem C10_witness :
    ((process_file envMix "aa" "g.txt" "d" wSt).2 =
        Except.error ("Error processing file " ++ "g.txt" ++ ": " ++ "socket closed"))
    ∧ ("g.txt" : String) ∈ (["f.txt", "g.txt"] : List String)
    ∧ fileHardFails envMix (pathJoin "root" "aa") "aa" "g.txt" = true
    ∧ (process_file envMix "aa" "g.txt" "d" wSt).1.failed_files =
        wSt.failed_files ++ [("aa", "g.txt")]
    ∧ ("aa", "g.txt") ∈ (process_commit envMix "aa" ["f.txt", "g.txt"] "root" wSt).failed_files :=
  ⟨rfl, by decide, by decide,
   ((C10_record_appended_before_raise envMix "aa" "g.txt" "d" wSt).1 _ rfl).1,
   (C10_record_appended_before_raise envMix "aa" "g.txt" "d" wSt).2 "root"
      ["f.txt", "g.txt"] wSt (by decide) (by decide)⟩

theorem process_file_success_events (env : Env) (c f dir : String) (st : St)
    (h : fileSucceeds env dir c f = true) :
    (process_file env c f dir st).1.events =
      st.events ++ [Event.mkdirs (dirname (pathJoin dir f)),
                    Event.fwrite (pathJoin dir f) (contentOf env c f)] := by
  cases hf : env.fetch c f with
  | ok content =>
    have hw : env.writeOk (pathJoin dir f) content = true := by
      simpa [fileSucceeds, hf] using h
    simp [process_file, contentOf, hf, hw]
  | gitError msg => simp [fileSucceeds, hf] at h
  | otherError msg => simp [fileSucceeds, hf] at h

end BackupScript
